import Mathlib

/-!
Verification of the CRR binomial option pricing model
(`binomial_model.py`: `binomial_price` and `greeks_binomial`).

The Python source is embedded shallowly: machine floats become exact reals,
numpy arrays become `List ℝ`, and raised exceptions become an explicit
`PricerError` value in `Except`.  Division by an integer zero (which raises
`ZeroDivisionError` in Python) is modelled by an explicit error branch.
-/

open Real

/-- Option kind: the `option` argument of the source, `'call'` or `'put'`. -/
inductive OptionKind where
  | call
  | put
deriving DecidableEq, Repr

/-- Exercise style: the `style` argument of the source, `'amer'` or `'euro'`. -/
inductive Style where
  | amer
  | euro
deriving DecidableEq, Repr

/-- The failure modes of `binomial_price`:
`zeroDivision` is Python's `ZeroDivisionError` raised by `dt = T / N` when
`N = 0`; `invalidConfiguration` is the `ValueError` raised when `dt <= 0`
("T must be > 0 and N must be >= 1"); `arbitrageViolation p` is the
`ValueError` raised when the derived probability is not in (0,1), carrying the
computed `p` that the message reports; `indexError` is Python's `IndexError`
from `V[0]` on an empty array. -/
inductive PricerError where
  | zeroDivision
  | invalidConfiguration
  | arbitrageViolation (p : ℝ)
  | indexError

/-- Payoff of the option at underlying price `s` (source lines 42–45 and
59–62): `max(s - K, 0)` for a call, `max(K - s, 0)` for a put. -/
noncomputable def payoff (option : OptionKind) (K s : ℝ) : ℝ :=
  match option with
  | .call => max (s - K) 0
  | .put => max (K - s) 0

/-- CRR up factor `u = exp(sigma * sqrt(dt))` (source line 28). -/
noncomputable def uFactor (sigma dt : ℝ) : ℝ :=
  Real.exp (sigma * Real.sqrt dt)

/-- CRR down factor `d = 1.0 / u` (source line 29). -/
noncomputable def dFactor (sigma dt : ℝ) : ℝ :=
  1 / uFactor sigma dt

/-- Risk-neutral probability `p = (exp((r - q) dt) - d) / (u - d)`
(source line 32). -/
noncomputable def probP (r q sigma dt : ℝ) : ℝ :=
  (Real.exp ((r - q) * dt) - dFactor sigma dt) / (uFactor sigma dt - dFactor sigma dt)

/-- One vectorised continuation update
`disc * (p * V[1:i+2] + (1 - p) * V[0:i+1])` (source line 53): entry `j` of
the result pairs `V[j+1]` with `V[j]`. -/
noncomputable def contLayer (p disc : ℝ) (V : List ℝ) : List ℝ :=
  List.zipWith (fun hi lo => disc * (p * hi + (1 - p) * lo)) (V.drop 1) V

/-- The early-exercise payoffs at step `i`
(`S_nodes` and `exercise`, source lines 57–62). -/
noncomputable def exerciseLayer (S K u d : ℝ) (option : OptionKind) (i : ℕ) : List ℝ :=
  ((List.range (i + 1)).map fun j => S * u ^ j * d ^ (i - j)).map fun s => payoff option K s

/-- One iteration of the backward-induction loop body at step `i`
(source lines 51–64): the continuation update, followed for American style by
`np.maximum` against the early-exercise payoffs. -/
noncomputable def backstep (S K u d p disc : ℝ) (option : OptionKind) (style : Style)
    (i : ℕ) (V : List ℝ) : List ℝ :=
  let cont := contLayer p disc V
  match style with
  | .euro => cont
  | .amer => List.zipWith max cont (exerciseLayer S K u d option i)

/-- The loop `for i in range(N - 1, -1, -1)` (source line 51): `backloop … k V`
runs the body for `i = k - 1, k - 2, …, 0`. -/
noncomputable def backloop (S K u d p disc : ℝ) (option : OptionKind) (style : Style) :
    ℕ → List ℝ → List ℝ
  | 0, V => V
  | k + 1, V => backloop S K u d p disc option style k (backstep S K u d p disc option style k V)

/-- Shallow embedding of `binomial_price` (source lines 3–66).  The guards
mirror the source in order: Python raises `ZeroDivisionError` computing
`dt = T / N` when `N = 0`; then `dt <= 0` raises the `ValueError` modelled by
`invalidConfiguration`; then `not (0 < p < 1)` raises the `ValueError`
modelled by `arbitrageViolation p`.  Otherwise the maturity layer of
`N + 1` payoffs at prices `S * u^j * d^(N-j)` is folded backward and
`float(V[0])` is returned (an empty final layer would be Python's
`IndexError`). -/
noncomputable def binomial_price (S K T r sigma : ℝ) (N : ℕ)
    (option : OptionKind) (style : Style) (q : ℝ) : Except PricerError ℝ :=
  if N = 0 then .error .zeroDivision
  else
    let dt := T / N
    if dt ≤ 0 then .error .invalidConfiguration
    else
      let u := uFactor sigma dt
      let d := dFactor sigma dt
      let p := probP r q sigma dt
      if 0 < p ∧ p < 1 then
        let ST := (List.range (N + 1)).map fun j => S * u ^ j * d ^ (N - j)
        let V := ST.map fun s => payoff option K s
        let disc := Real.exp (-r * dt)
        match backloop S K u d p disc option style N V with
        | [] => .error .indexError
        | v :: _ => .ok v
      else .error (.arbitrageViolation p)

/-- Modelled from the spec (§4.1, steps 3–5): one backward-induction update of
the node-value function at step `i`.  For every node `j`, the new value is the
discounted risk-neutral expectation `disc * (p * V[j+1] + (1 - p) * V[j])`;
for American style it is replaced by the maximum with the immediate-exercise
payoff at the recomputed price `S * u^j * d^(i-j)`. -/
noncomputable def stepVal (S K u d p disc : ℝ) (option : OptionKind) (style : Style)
    (i : ℕ) (f : ℕ → ℝ) : ℕ → ℝ :=
  match style with
  | .euro => fun j => disc * (p * f (j + 1) + (1 - p) * f j)
  | .amer => fun j =>
      max (disc * (p * f (j + 1) + (1 - p) * f j)) (payoff option K (S * u ^ j * d ^ (i - j)))

/-- Modelled from the spec (§4.1, step 4): `specLayer … k f` replaces the
layer `f` once for each step `i = k - 1` down to `0`. -/
noncomputable def specLayer (S K u d p disc : ℝ) (option : OptionKind) (style : Style) :
    ℕ → (ℕ → ℝ) → (ℕ → ℝ)
  | 0, f => f
  | k + 1, f => specLayer S K u d p disc option style k (stepVal S K u d p disc option style k f)

/-- Modelled from the spec (§4.1): the reference backward-induction price —
build the maturity layer of payoffs at prices `S * u^j * d^(N-j)`, apply the
per-step replacement for `i = N - 1` down to `0`, and read the single
remaining value at node `0`. -/
noncomputable def specPrice (S K T r sigma q : ℝ) (N : ℕ)
    (option : OptionKind) (style : Style) : ℝ :=
  let dt := T / N
  let u := uFactor sigma dt
  let d := dFactor sigma dt
  let p := probP r q sigma dt
  let disc := Real.exp (-r * dt)
  specLayer S K u d p disc option style N (fun j => payoff option K (S * u ^ j * d ^ (N - j))) 0

/-- The record returned by `greeks_binomial` (source lines 108–115). -/
structure GreeksResult where
  price : ℝ
  delta : ℝ
  gamma : ℝ
  theta : ℝ
  vega : ℝ
  rho : ℝ

/-- The argument tuple of one `binomial_price` invocation. -/
structure PriceCall where
  S : ℝ
  K : ℝ
  T : ℝ
  r : ℝ
  sigma : ℝ
  N : ℕ
  option : OptionKind
  style : Style
  q : ℝ

/-- Shallow embedding of the body of `greeks_binomial` (source lines 69–115),
parametrised by the pricing function it invokes, so that its invocations can
be instrumented.  The sequence of calls and the difference formulas follow
the source line by line; `1 / 1000000` is the literal `1e-6`. -/
noncomputable def greeks_with {m : Type → Type} [Monad m]
    (price : ℝ → ℝ → ℝ → ℝ → ℝ → ℕ → OptionKind → Style → ℝ → m ℝ)
    (S K T r sigma : ℝ) (N : ℕ) (option : OptionKind) (style : Style)
    (q h_S h_sigma h_T h_r : ℝ) : m GreeksResult := do
  let price0 ← price S K T r sigma N option style q
  let up ← price (S + h_S) K T r sigma N option style q
  let dn ← price (S - h_S) K T r sigma N option style q
  let delta := (up - dn) / (2 * h_S)
  let gamma := (up - 2 * price0 + dn) / h_S ^ 2
  let Tp := T + h_T
  let Tm := max (T - h_T) (1 / 1000000)
  let vp ← price S K Tp r sigma N option style q
  let vm ← price S K Tm r sigma N option style q
  let theta := (vp - vm) / (2 * h_T) * (-1)
  let sp ← price S K T r (sigma + h_sigma) N option style q
  let sm ← price S K T r (sigma - h_sigma) N option style q
  let vega := (sp - sm) / (2 * h_sigma)
  let rp ← price S K T (r + h_r) sigma N option style q
  let rm ← price S K T (r - h_r) sigma N option style q
  let rho := (rp - rm) / (2 * h_r)
  pure { price := price0, delta := delta, gamma := gamma, theta := theta,
         vega := vega, rho := rho }

/-- `greeks_binomial` (source lines 69–115): `greeks_with` invoking the
actual pricer in the exception monad, so any pricer failure propagates. -/
noncomputable def greeks_binomial (S K T r sigma : ℝ) (N : ℕ)
    (option : OptionKind) (style : Style) (q h_S h_sigma h_T h_r : ℝ) :
    Except PricerError GreeksResult :=
  greeks_with binomial_price S K T r sigma N option style q h_S h_sigma h_T h_r

/-- An instrumented pricer that records its argument tuple and returns `0`:
running `greeks_with recPricer` exposes exactly which pricer invocations
`greeks_binomial` performs. -/
noncomputable def recPricer :
    ℝ → ℝ → ℝ → ℝ → ℝ → ℕ → OptionKind → Style → ℝ → StateM (List PriceCall) ℝ :=
  fun S K T r sigma N option style q calls =>
    ((0 : ℝ), calls ++ [⟨S, K, T, r, sigma, N, option, style, q⟩])

/-! ### Structural lemmas: the list-based loop matches the spec recursion -/

lemma zipWith_map_same {α β : Type} (g : β → β → β) (f1 f2 : α → β) (l : List α) :
    List.zipWith g (l.map f1) (l.map f2) = l.map fun x => g (f1 x) (f2 x) := by
  induction l with
  | nil => rfl
  | cons a l ih => simp [ih]

lemma contLayer_map (p disc : ℝ) (n : ℕ) (f : ℕ → ℝ) :
    contLayer p disc ((List.range (n + 2)).map f) =
      (List.range (n + 1)).map fun j => disc * (p * f (j + 1) + (1 - p) * f j) := by
  apply List.ext_getElem
  · simp [contLayer]
  · intro i h1 h2
    simp only [contLayer, List.getElem_zipWith, List.getElem_map, List.getElem_drop,
      List.getElem_range]
    ring_nf

lemma backstep_map (S K u d p disc : ℝ) (option : OptionKind) (style : Style)
    (k : ℕ) (f : ℕ → ℝ) :
    backstep S K u d p disc option style k ((List.range (k + 2)).map f) =
      (List.range (k + 1)).map (stepVal S K u d p disc option style k f) := by
  cases style with
  | euro =>
      simpa [backstep, stepVal] using contLayer_map p disc k f
  | amer =>
      simp only [backstep, exerciseLayer, contLayer_map, List.map_map, stepVal]
      rw [zipWith_map_same]
      rfl

lemma backloop_spec (S K u d p disc : ℝ) (option : OptionKind) (style : Style) :
    ∀ (k : ℕ) (f : ℕ → ℝ),
      backloop S K u d p disc option style k ((List.range (k + 1)).map f) =
        [specLayer S K u d p disc option style k f 0] := by
  intro k
  induction k with
  | zero =>
      intro f
      rw [show List.range 1 = [0] from rfl]
      rfl
  | succ k ih =>
      intro f
      show backloop S K u d p disc option style k
          (backstep S K u d p disc option style k ((List.range (k + 2)).map f)) = _
      rw [backstep_map, ih]
      rfl

/-- Under the guards, `binomial_price` succeeds and returns exactly the
spec's backward-induction value. -/
lemma binomial_price_eq_spec (S K T r sigma q : ℝ) (N : ℕ)
    (option : OptionKind) (style : Style)
    (hN : N ≠ 0) (hdt : 0 < T / (N : ℝ))
    (hp : 0 < probP r q sigma (T / N) ∧ probP r q sigma (T / N) < 1) :
    binomial_price S K T r sigma N option style q =
      .ok (specPrice S K T r sigma q N option style) := by
  simp only [binomial_price, specPrice]
  rw [if_neg hN, if_neg (not_le.mpr hdt), if_pos hp, List.map_map]
  have h := backloop_spec S K (uFactor sigma (T / N)) (dFactor sigma (T / N))
    (probP r q sigma (T / N)) (Real.exp (-r * (T / N))) option style N
    ((fun s => payoff option K s) ∘ fun j =>
      S * uFactor sigma (T / N) ^ j * dFactor sigma (T / N) ^ (N - j))
  rw [h]
  rfl

/-- Success inversion: an `ok` result implies every guard passed and the
value is the spec's backward-induction value. -/
lemma binomial_price_ok_inversion {S K T r sigma q : ℝ} {N : ℕ}
    {option : OptionKind} {style : Style} {a : ℝ}
    (h : binomial_price S K T r sigma N option style q = .ok a) :
    N ≠ 0 ∧ 0 < T / (N : ℝ) ∧
      (0 < probP r q sigma (T / N) ∧ probP r q sigma (T / N) < 1) ∧
      a = specPrice S K T r sigma q N option style := by
  by_cases hN : N = 0
  · rw [binomial_price, if_pos hN] at h
    exact absurd h (by simp)
  by_cases hdt : T / (N : ℝ) ≤ 0
  · simp only [binomial_price] at h
    rw [if_neg hN, if_pos hdt] at h
    exact absurd h (by simp)
  by_cases hp : 0 < probP r q sigma (T / N) ∧ probP r q sigma (T / N) < 1
  · rw [binomial_price_eq_spec S K T r sigma q N option style hN (lt_of_not_le hdt) hp] at h
    exact ⟨hN, lt_of_not_le hdt, hp, (Except.ok.inj h).symm⟩
  · simp only [binomial_price] at h
    rw [if_neg hN, if_neg hdt, if_neg hp] at h
    exact absurd h (by simp)

/-! ### The risk-neutral probability -/

lemma dFactor_eq_exp_neg (sigma dt : ℝ) :
    dFactor sigma dt = Real.exp (-(sigma * Real.sqrt dt)) := by
  rw [dFactor, uFactor, Real.exp_neg, one_div]

/-- If the per-step drift `(r - q) dt` lies strictly between `-sigma sqrt dt`
and `sigma sqrt dt`, the derived probability is strictly between 0 and 1. -/
lemma probP_window (r q sigma dt : ℝ)
    (h1 : -(sigma * Real.sqrt dt) < (r - q) * dt)
    (h2 : (r - q) * dt < sigma * Real.sqrt dt) :
    0 < probP r q sigma dt ∧ probP r q sigma dt < 1 := by
  have hXd : dFactor sigma dt < Real.exp ((r - q) * dt) := by
    rw [dFactor_eq_exp_neg]; exact Real.exp_lt_exp.mpr h1
  have hXu : Real.exp ((r - q) * dt) < uFactor sigma dt :=
    Real.exp_lt_exp.mpr h2
  have hden : 0 < uFactor sigma dt - dFactor sigma dt := sub_pos.mpr (hXd.trans hXu)
  unfold probP
  constructor
  · exact div_pos (sub_pos.mpr hXd) hden
  · rw [div_lt_one hden]; linarith

/-- With zero volatility `u = d = 1`, so the probability's denominator is zero
and (with the reals' division convention) the derived probability is `0`. -/
lemma probP_sigma_zero (r q dt : ℝ) : probP r q 0 dt = 0 := by
  unfold probP dFactor uFactor
  simp

/-- If `0 < probP` then the denominator `u - d` cannot vanish. -/
lemma uFactor_ne_dFactor_of_probP_pos {r q sigma dt : ℝ}
    (h : 0 < probP r q sigma dt) : uFactor sigma dt - dFactor sigma dt ≠ 0 := by
  intro hz
  rw [probP, hz, div_zero] at h
  exact lt_irrefl 0 h

/-- `p * u + (1 - p) * d = exp((r - q) dt)`: the one-step risk-neutral
martingale identity, valid whenever `u ≠ d`. -/
lemma probP_martingale (r q sigma dt : ℝ)
    (hne : uFactor sigma dt - dFactor sigma dt ≠ 0) :
    probP r q sigma dt * uFactor sigma dt + (1 - probP r q sigma dt) * dFactor sigma dt =
      Real.exp ((r - q) * dt) := by
  unfold probP
  field_simp
  ring

/-- Generic arbitrage-failure lemma: with a positive step length but a
probability outside (0,1), the pricer fails reporting that probability. -/
lemma binomial_price_arbitrage (S K T r sigma q : ℝ) (N : ℕ)
    (option : OptionKind) (style : Style)
    (hdt : 0 < T / (N : ℝ))
    (hp : ¬(0 < probP r q sigma (T / N) ∧ probP r q sigma (T / N) < 1)) :
    binomial_price S K T r sigma N option style q =
      .error (.arbitrageViolation (probP r q sigma (T / N))) := by
  have hN : N ≠ 0 := by
    intro h
    rw [h] at hdt
    simp at hdt
  simp only [binomial_price]
  rw [if_neg hN, if_neg (not_le.mpr hdt), if_neg hp]

/-! ### Claims C3, C4, C5, C10 -/

/-- C3 (code evaluated at the failing input): with `N = 0` the source raises
`ZeroDivisionError` at `dt = T / N`, before the `dt <= 0` guard that was meant
to report `InvalidConfiguration` for `N < 1`. -/
theorem binomial_price_N_zero_zero_division :
    binomial_price 1 1 1 0 1 0 OptionKind.call Style.euro 0 =
      .error .zeroDivision := rfl

/-- C4: whenever the step length `dt = T / N` is positive but the derived
probability `p = (exp((r - q) dt) - d)/(u - d)` is not strictly between 0
and 1, `binomial_price` fails with the arbitrage-violation error, and the
error reports the computed value of `p`. -/
theorem binomial_price_arbitrage_violation_reports_p
    (S K T r sigma q : ℝ) (N : ℕ) (option : OptionKind) (style : Style)
    (hdt : 0 < T / (N : ℝ))
    (hp : ¬(0 < probP r q sigma (T / N) ∧ probP r q sigma (T / N) < 1)) :
    binomial_price S K T r sigma N option style q =
      .error (.arbitrageViolation (probP r q sigma (T / N))) :=
  binomial_price_arbitrage S K T r sigma q N option style hdt hp

/-- Witness for C4 at `S = K = 1, T = 1, r = q = 0, sigma = 0, N = 1`:
the probability degenerates and the pricer reports it. -/
theorem binomial_price_arbitrage_violation_reports_p_witness :
    binomial_price 1 1 1 0 0 1 OptionKind.call Style.euro 0 =
      .error (.arbitrageViolation (probP 0 0 0 (1 / ((1 : ℕ) : ℝ)))) :=
  binomial_price_arbitrage_violation_reports_p 1 1 1 0 0 0 1 OptionKind.call Style.euro
    (by norm_num) (by simp [probP_sigma_zero])

/-- C5: on every valid input — positive expiry, at least one step, derived
probability strictly inside (0,1) — `binomial_price` returns a price: no
error branch is reachable. -/
theorem binomial_price_succeeds_on_valid_input
    (S K T r sigma q : ℝ) (N : ℕ) (option : OptionKind) (style : Style)
    (hT : 0 < T) (hN : 1 ≤ N)
    (hp : 0 < probP r q sigma (T / N) ∧ probP r q sigma (T / N) < 1) :
    ∃ x, binomial_price S K T r sigma N option style q = .ok x := by
  refine ⟨_, binomial_price_eq_spec S K T r sigma q N option style ?_ ?_ hp⟩
  · omega
  · exact div_pos hT (by exact_mod_cast Nat.pos_of_ne_zero (by omega))

/-- Witness for C5 at the boundary `N = 1` (American call, `sigma = 1`,
`T = 1`, `r = q = 0`): the single-step tree still produces a price. -/
theorem binomial_price_succeeds_on_valid_input_witness :
    ∃ x, binomial_price 1 1 1 0 1 1 OptionKind.call Style.amer 0 = .ok x :=
  binomial_price_succeeds_on_valid_input 1 1 1 0 1 0 1 OptionKind.call Style.amer
    (by norm_num) (by norm_num)
    (probP_window 0 0 1 (1 / ((1 : ℕ) : ℝ))
      (by norm_num) (by norm_num))

/-- C10: with zero volatility (admitted by the data model) the up and down
factors coincide, the probability's denominator `u - d` is zero, the derived
probability cannot lie strictly inside (0,1), and the pricer always fails at
the probability check — it never returns a price. -/
theorem binomial_price_sigma_zero_fails
    (S K T r q : ℝ) (N : ℕ) (option : OptionKind) (style : Style)
    (hT : 0 < T) (hN : 1 ≤ N) :
    ∃ pv, binomial_price S K T r 0 N option style q =
      .error (.arbitrageViolation pv) := by
  have hdt : 0 < T / (N : ℝ) :=
    div_pos hT (by exact_mod_cast Nat.pos_of_ne_zero (by omega))
  exact ⟨probP r q 0 (T / N),
    binomial_price_arbitrage S K T r 0 q N option style hdt
      (by simp [probP_sigma_zero])⟩

/-- Witness for C10 at `S = 100, K = 90, T = 2, r = 1/20, N = 3`. -/
theorem binomial_price_sigma_zero_fails_witness :
    ∃ pv, binomial_price 100 90 2 (1 / 20) 0 3 OptionKind.put Style.amer 0 =
      .error (.arbitrageViolation pv) :=
  binomial_price_sigma_zero_fails 100 90 2 (1 / 20) 0 3 OptionKind.put Style.amer
    (by norm_num) (by norm_num)

/-! ### Claims C1 and C2: the loop refines the spec's backward induction -/

/-- C1: for every European-style input with positive expiry, at least one
step, and derived probability strictly inside (0,1), `binomial_price`
returns exactly the spec's reference backward-induction value: the maturity
layer of `N + 1` payoffs, the discounted-expectation replacement for each
step `i = N - 1` down to `0`, and the single remaining value. -/
theorem binomial_price_euro_matches_spec_induction
    (S K T r sigma q : ℝ) (N : ℕ) (option : OptionKind)
    (hT : 0 < T) (hN : 1 ≤ N)
    (hp : 0 < probP r q sigma (T / N) ∧ probP r q sigma (T / N) < 1) :
    binomial_price S K T r sigma N option Style.euro q =
      .ok (specPrice S K T r sigma q N option Style.euro) :=
  binomial_price_eq_spec S K T r sigma q N option Style.euro (by omega)
    (div_pos hT (by exact_mod_cast Nat.pos_of_ne_zero (by omega))) hp

/-- Witness for C1 at `S = K = 1, T = 1, r = q = 0, sigma = 1, N = 1`. -/
theorem binomial_price_euro_matches_spec_induction_witness :
    binomial_price 1 1 1 0 1 1 OptionKind.call Style.euro 0 =
      .ok (specPrice 1 1 1 0 1 0 1 OptionKind.call Style.euro) :=
  binomial_price_euro_matches_spec_induction 1 1 1 0 1 0 1 OptionKind.call
    (by norm_num) (by norm_num)
    (probP_window 0 0 1 (1 / ((1 : ℕ) : ℝ)) (by norm_num) (by norm_num))

/-- C2: for every American-style input with positive expiry, at least one
step, and derived probability strictly inside (0,1), `binomial_price`
returns exactly the spec's reference value in which, at every backward step
`i = N - 1` down to `0`, each node value is the maximum of the discounted
continuation value and the immediate-exercise payoff at the recomputed
price `S * u^j * d^(i-j)`. -/
theorem binomial_price_amer_early_exercise_every_step
    (S K T r sigma q : ℝ) (N : ℕ) (option : OptionKind)
    (hT : 0 < T) (hN : 1 ≤ N)
    (hp : 0 < probP r q sigma (T / N) ∧ probP r q sigma (T / N) < 1) :
    binomial_price S K T r sigma N option Style.amer q =
      .ok (specPrice S K T r sigma q N option Style.amer) :=
  binomial_price_eq_spec S K T r sigma q N option Style.amer (by omega)
    (div_pos hT (by exact_mod_cast Nat.pos_of_ne_zero (by omega))) hp

/-- Witness for C2 at `S = K = 1, T = 1, r = q = 0, sigma = 1, N = 1`. -/
theorem binomial_price_amer_early_exercise_every_step_witness :
    binomial_price 1 1 1 0 1 1 OptionKind.put Style.amer 0 =
      .ok (specPrice 1 1 1 0 1 0 1 OptionKind.put Style.amer) :=
  binomial_price_amer_early_exercise_every_step 1 1 1 0 1 0 1 OptionKind.put
    (by norm_num) (by norm_num)
    (probP_window 0 0 1 (1 / ((1 : ℕ) : ℝ)) (by norm_num) (by norm_num))

/-! ### Claim C6: American price dominates European price -/

lemma specLayer_euro_le_amer (S K u d p disc : ℝ) (option : OptionKind)
    (hp0 : 0 ≤ p) (hp1 : p ≤ 1) (hdisc : 0 ≤ disc) :
    ∀ (k : ℕ) (f g : ℕ → ℝ), (∀ j, f j ≤ g j) →
      ∀ j, specLayer S K u d p disc option Style.euro k f j ≤
        specLayer S K u d p disc option Style.amer k g j := by
  intro k
  induction k with
  | zero => intro f g h j; exact h j
  | succ k ih =>
      intro f g h j
      show specLayer S K u d p disc option Style.euro k
          (stepVal S K u d p disc option Style.euro k f) j ≤
        specLayer S K u d p disc option Style.amer k
          (stepVal S K u d p disc option Style.amer k g) j
      apply ih
      intro i
      show disc * (p * f (i + 1) + (1 - p) * f i) ≤
        max (disc * (p * g (i + 1) + (1 - p) * g i))
          (payoff option K (S * u ^ i * d ^ (k - i)))
      refine le_trans ?_ (le_max_left _ _)
      apply mul_le_mul_of_nonneg_left ?_ hdisc
      exact add_le_add (mul_le_mul_of_nonneg_left (h _) hp0)
        (mul_le_mul_of_nonneg_left (h i) (by linarith))

/-- C6: whenever both the American-style and the European-style calls succeed
on identical parameters, the American price is at least the European price. -/
theorem binomial_price_amer_ge_euro
    (S K T r sigma q : ℝ) (N : ℕ) (option : OptionKind) (a e : ℝ)
    (ha : binomial_price S K T r sigma N option Style.amer q = .ok a)
    (he : binomial_price S K T r sigma N option Style.euro q = .ok e) :
    e ≤ a := by
  obtain ⟨hN, hdt, hp, haa⟩ := binomial_price_ok_inversion ha
  obtain ⟨-, -, -, hee⟩ := binomial_price_ok_inversion he
  rw [haa, hee]
  simp only [specPrice]
  exact specLayer_euro_le_amer S K (uFactor sigma (T / N)) (dFactor sigma (T / N))
    (probP r q sigma (T / N)) (Real.exp (-r * (T / N))) option
    hp.1.le hp.2.le (Real.exp_pos _).le N _ _ (fun j => le_rfl) 0

/-- Witness for C6 at `S = K = 1, T = 1, r = q = 0, sigma = 1, N = 1`. -/
theorem binomial_price_amer_ge_euro_witness :
    ∃ a e, binomial_price 1 1 1 0 1 1 OptionKind.call Style.amer 0 = .ok a ∧
      binomial_price 1 1 1 0 1 1 OptionKind.call Style.euro 0 = .ok e ∧ e ≤ a := by
  have hp : 0 < probP 0 0 1 ((1 : ℝ) / ((1 : ℕ) : ℝ)) ∧
      probP 0 0 1 ((1 : ℝ) / ((1 : ℕ) : ℝ)) < 1 :=
    probP_window 0 0 1 (1 / ((1 : ℕ) : ℝ)) (by norm_num) (by norm_num)
  have ha := binomial_price_eq_spec 1 1 1 0 1 0 1 OptionKind.call Style.amer
    (by norm_num) (by norm_num) hp
  have he := binomial_price_eq_spec 1 1 1 0 1 0 1 OptionKind.call Style.euro
    (by norm_num) (by norm_num) hp
  exact ⟨_, _, ha, he,
    binomial_price_amer_ge_euro 1 1 1 0 1 0 1 OptionKind.call _ _ ha he⟩

/-! ### Claim C7: put-call parity for European prices -/

/-- For the European update the step index is irrelevant, so the recursion can
also be unrolled with the newest step outermost. -/
lemma specLayer_euro_succ (S K u d p disc : ℝ) (option : OptionKind) :
    ∀ (k : ℕ) (f : ℕ → ℝ) (j : ℕ),
      specLayer S K u d p disc option Style.euro (k + 1) f j =
        disc * (p * specLayer S K u d p disc option Style.euro k f (j + 1) +
          (1 - p) * specLayer S K u d p disc option Style.euro k f j) := by
  intro k
  induction k with
  | zero => intro f j; rfl
  | succ k ih =>
      intro f j
      exact ih (stepVal S K u d p disc option Style.euro k f) j

/-- The European backward induction does not look at the option kind (only its
maturity layer does). -/
lemma specLayer_euro_option_irrel (S K u d p disc : ℝ) (o1 o2 : OptionKind) :
    ∀ (k : ℕ) (f : ℕ → ℝ) (j : ℕ),
      specLayer S K u d p disc o1 Style.euro k f j =
        specLayer S K u d p disc o2 Style.euro k f j := by
  intro k
  induction k with
  | zero => intro f j; rfl
  | succ k ih =>
      intro f j
      rw [specLayer_euro_succ, specLayer_euro_succ, ih, ih]

/-- The European backward induction is linear: it maps a difference of
maturity layers to the difference of the values. -/
lemma specLayer_euro_sub (S K u d p disc : ℝ) (option : OptionKind) :
    ∀ (k : ℕ) (f g : ℕ → ℝ) (j : ℕ),
      specLayer S K u d p disc option Style.euro k (fun i => f i - g i) j =
        specLayer S K u d p disc option Style.euro k f j -
          specLayer S K u d p disc option Style.euro k g j := by
  intro k
  induction k with
  | zero => intro f g j; rfl
  | succ k ih =>
      intro f g j
      rw [specLayer_euro_succ, specLayer_euro_succ, specLayer_euro_succ, ih, ih]
      ring

/-- A constant maturity layer is discounted by `disc` once per step. -/
lemma specLayer_euro_const (S K u d p disc c : ℝ) (option : OptionKind) :
    ∀ (k : ℕ) (j : ℕ),
      specLayer S K u d p disc option Style.euro k (fun _ => c) j = c * disc ^ k := by
  intro k
  induction k with
  | zero => intro j; simp [specLayer]
  | succ k ih =>
      intro j
      rw [specLayer_euro_succ, ih, ih]
      ring

/-- The maturity layer of underlying prices is carried backward with one
dividend-discount factor `exp(-q dt)` per step: the per-step martingale
identity `disc * (p u + (1 - p) d) = exp(-q dt)` telescopes. -/
lemma specLayer_euro_stock (S K u d p disc r q dt : ℝ) (option : OptionKind) (N : ℕ)
    (hmart : p * u + (1 - p) * d = Real.exp ((r - q) * dt))
    (hdisc : disc = Real.exp (-r * dt)) :
    ∀ (k : ℕ) (j : ℕ), j + k ≤ N →
      specLayer S K u d p disc option Style.euro k
          (fun i => S * u ^ i * d ^ (N - i)) j =
        S * u ^ j * d ^ (N - k - j) * Real.exp (-q * dt) ^ k := by
  intro k
  induction k with
  | zero =>
      intro j hj
      simp [specLayer]
  | succ k ih =>
      intro j hj
      rw [specLayer_euro_succ, ih (j + 1) (by omega), ih j (by omega)]
      have h1 : N - k - j = (N - (k + 1) - j) + 1 := by omega
      have h2 : N - k - (j + 1) = N - (k + 1) - j := by omega
      have key : Real.exp (-r * dt) * Real.exp ((r - q) * dt) = Real.exp (-q * dt) := by
        rw [← Real.exp_add]
        congr 1
        ring
      rw [h1, h2, hdisc, pow_succ d, pow_succ u, pow_succ (Real.exp (-q * dt))]
      linear_combination
        (S * u ^ j * d ^ (N - (k + 1) - j) * Real.exp (-q * dt) ^ k * Real.exp (-r * dt)) * hmart +
        (S * u ^ j * d ^ (N - (k + 1) - j) * Real.exp (-q * dt) ^ k) * key

/-- At maturity a call minus a put is the forward payoff. -/
lemma payoff_call_sub_put (K x : ℝ) :
    payoff OptionKind.call K x - payoff OptionKind.put K x = x - K := by
  unfold payoff
  rcases le_total K x with h | h
  · rw [max_eq_left (by linarith), max_eq_right (by linarith)]
    ring
  · rw [max_eq_right (by linarith), max_eq_left (by linarith)]
    ring

/-- Spec-level put-call parity after `N` backward steps. -/
lemma specLayer_parity (S K u d p disc r q dt : ℝ) (N : ℕ)
    (hmart : p * u + (1 - p) * d = Real.exp ((r - q) * dt))
    (hdisc : disc = Real.exp (-r * dt)) :
    specLayer S K u d p disc OptionKind.call Style.euro N
        (fun j => payoff OptionKind.call K (S * u ^ j * d ^ (N - j))) 0 -
      specLayer S K u d p disc OptionKind.put Style.euro N
        (fun j => payoff OptionKind.put K (S * u ^ j * d ^ (N - j))) 0 =
      S * Real.exp (-q * dt) ^ N - K * disc ^ N := by
  rw [specLayer_euro_option_irrel S K u d p disc OptionKind.put OptionKind.call N
    (fun j => payoff OptionKind.put K (S * u ^ j * d ^ (N - j))) 0]
  rw [← specLayer_euro_sub]
  have hfun : (fun i => payoff OptionKind.call K (S * u ^ i * d ^ (N - i)) -
      payoff OptionKind.put K (S * u ^ i * d ^ (N - i))) =
      (fun i => S * u ^ i * d ^ (N - i) - K) := by
    funext i
    exact payoff_call_sub_put K (S * u ^ i * d ^ (N - i))
  rw [hfun, specLayer_euro_sub, specLayer_euro_stock S K u d p disc r q dt
    OptionKind.call N hmart hdisc N 0 (by omega), specLayer_euro_const]
  simp

/-- C7: European call and put prices from `binomial_price` with identical
parameters satisfy put-call parity exactly over the reals:
`C - P = S exp(-qT) - K exp(-rT)`. -/
theorem binomial_price_put_call_parity
    (S K T r sigma q : ℝ) (N : ℕ) (C P : ℝ)
    (hc : binomial_price S K T r sigma N OptionKind.call Style.euro q = .ok C)
    (hput : binomial_price S K T r sigma N OptionKind.put Style.euro q = .ok P) :
    C - P = S * Real.exp (-q * T) - K * Real.exp (-r * T) := by
  obtain ⟨hN, hdt, hp, hC⟩ := binomial_price_ok_inversion hc
  obtain ⟨-, -, -, hP⟩ := binomial_price_ok_inversion hput
  have hne : uFactor sigma (T / N) - dFactor sigma (T / N) ≠ 0 :=
    uFactor_ne_dFactor_of_probP_pos hp.1
  have hmart := probP_martingale r q sigma (T / N) hne
  have hN0 : (N : ℝ) ≠ 0 := Nat.cast_ne_zero.mpr hN
  have e0 : T / (N : ℝ) * N = T := div_mul_cancel₀ T hN0
  rw [hC, hP]
  simp only [specPrice]
  rw [specLayer_parity S K (uFactor sigma (T / N)) (dFactor sigma (T / N))
    (probP r q sigma (T / N)) (Real.exp (-r * (T / N))) r q (T / N) N hmart rfl]
  rw [← Real.exp_nat_mul, ← Real.exp_nat_mul]
  have e1 : (N : ℝ) * (-q * (T / N)) = -q * T := by
    have h : (N : ℝ) * (-q * (T / N)) = -q * (T / N * N) := by ring
    rw [h, e0]
  have e2 : (N : ℝ) * (-r * (T / N)) = -r * T := by
    have h : (N : ℝ) * (-r * (T / N)) = -r * (T / N * N) := by ring
    rw [h, e0]
  rw [e1, e2]

/-- Witness for C7 at `S = K = 1, T = 1, r = q = 0, sigma = 1, N = 1`. -/
theorem binomial_price_put_call_parity_witness :
    ∃ C P, binomial_price 1 1 1 0 1 1 OptionKind.call Style.euro 0 = .ok C ∧
      binomial_price 1 1 1 0 1 1 OptionKind.put Style.euro 0 = .ok P ∧
      C - P = 1 * Real.exp (-0 * 1) - 1 * Real.exp (-0 * 1) := by
  have hp := probP_window 0 0 1 (1 / ((1 : ℕ) : ℝ)) (by norm_num) (by norm_num)
  have hc := binomial_price_eq_spec 1 1 1 0 1 0 1 OptionKind.call Style.euro
    (by norm_num) (by norm_num) hp
  have hpt := binomial_price_eq_spec 1 1 1 0 1 0 1 OptionKind.put Style.euro
    (by norm_num) (by norm_num) hp
  exact ⟨_, _, hc, hpt,
    binomial_price_put_call_parity 1 1 1 0 1 0 1 _ _ hc hpt⟩

/-! ### Claims C8 and C9: the Greeks wrapper -/

lemma except_bind_ok_iff {ε α β : Type} (x : Except ε α) (f : α → Except ε β) (b : β) :
    x >>= f = Except.ok b ↔ ∃ a, x = Except.ok a ∧ f a = Except.ok b := by
  cases x with
  | error e => simp [Bind.bind, Except.bind]
  | ok a => simp [Bind.bind, Except.bind]

lemma except_pure_eq_ok {ε α : Type} (a : α) : (pure a : Except ε α) = Except.ok a := rfl

/-- If all nine pricer calls succeed, `greeks_binomial` returns the record
assembled from their values by the central-difference formulas. -/
lemma greeks_with_ok (S K T r sigma q h_S h_sigma h_T h_r : ℝ) (N : ℕ)
    (option : OptionKind) (style : Style) (v0 v1 v2 v3 v4 v5 v6 v7 v8 : ℝ)
    (h0 : binomial_price S K T r sigma N option style q = .ok v0)
    (h1 : binomial_price (S + h_S) K T r sigma N option style q = .ok v1)
    (h2 : binomial_price (S - h_S) K T r sigma N option style q = .ok v2)
    (h3 : binomial_price S K (T + h_T) r sigma N option style q = .ok v3)
    (h4 : binomial_price S K (max (T - h_T) (1 / 1000000)) r sigma N option style q = .ok v4)
    (h5 : binomial_price S K T r (sigma + h_sigma) N option style q = .ok v5)
    (h6 : binomial_price S K T r (sigma - h_sigma) N option style q = .ok v6)
    (h7 : binomial_price S K T (r + h_r) sigma N option style q = .ok v7)
    (h8 : binomial_price S K T (r - h_r) sigma N option style q = .ok v8) :
    greeks_binomial S K T r sigma N option style q h_S h_sigma h_T h_r =
      .ok { price := v0, delta := (v1 - v2) / (2 * h_S),
            gamma := (v1 - 2 * v0 + v2) / h_S ^ 2,
            theta := (v3 - v4) / (2 * h_T) * (-1),
            vega := (v5 - v6) / (2 * h_sigma),
            rho := (v7 - v8) / (2 * h_r) } := by
  simp only [greeks_binomial, greeks_with]
  rw [h0, h1, h2, h3, h4, h5, h6, h7, h8]
  rfl

/-- C8: whenever `greeks_binomial` succeeds, its theta field equals
`-(vp - vm) / (2 h_T)` where `vp` is the price at expiry `T + h_T` and `vm`
the price at expiry `max(T - h_T, 1e-6)` — the denominator is `2 h_T` even
when the downward bump was clamped at the floor. -/
theorem greeks_binomial_theta_formula
    (S K T r sigma q h_S h_sigma h_T h_r : ℝ) (N : ℕ)
    (option : OptionKind) (style : Style) (g : GreeksResult) (vp vm : ℝ)
    (hg : greeks_binomial S K T r sigma N option style q h_S h_sigma h_T h_r = .ok g)
    (hvp : binomial_price S K (T + h_T) r sigma N option style q = .ok vp)
    (hvm : binomial_price S K (max (T - h_T) (1 / 1000000)) r sigma N option style q = .ok vm) :
    g.theta = -(vp - vm) / (2 * h_T) := by
  simp only [greeks_binomial, greeks_with, except_bind_ok_iff, except_pure_eq_ok,
    Except.ok.injEq] at hg
  obtain ⟨v0, h0, v1, h1, v2, h2, v3, h3, v4, h4, v5, h5, v6, h6, v7, h7, v8, h8, hgeq⟩ := hg
  rw [hvp] at h3
  rw [hvm] at h4
  rw [← hgeq]
  rw [← Except.ok.inj h3, ← Except.ok.inj h4]
  show (vp - vm) / (2 * h_T) * (-1) = -(vp - vm) / (2 * h_T)
  ring

/-- With zero rate and dividend the probability window only needs positive
volatility and step length. -/
lemma probP_window_rzero (sigma dt : ℝ) (hs : 0 < sigma) (hdt : 0 < dt) :
    0 < probP 0 0 sigma dt ∧ probP 0 0 sigma dt < 1 := by
  have h := mul_pos hs (Real.sqrt_pos.mpr hdt)
  apply probP_window
  · nlinarith
  · nlinarith

/-- Witness for C8 at `S = K = 1, T = 1, r = q = 0, sigma = 1, N = 1` with
all four bumps equal to `1/2`: the wrapper succeeds and its theta is the
claimed quotient. -/
theorem greeks_binomial_theta_formula_witness :
    ∃ g vp vm,
      greeks_binomial 1 1 1 0 1 1 OptionKind.call Style.amer 0 (1/2) (1/2) (1/2) (1/2) =
        .ok g ∧
      binomial_price 1 1 (1 + 1/2) 0 1 1 OptionKind.call Style.amer 0 = .ok vp ∧
      binomial_price 1 1 (max (1 - 1/2) (1/1000000)) 0 1 1 OptionKind.call Style.amer 0 =
        .ok vm ∧
      g.theta = -(vp - vm) / (2 * (1/2)) := by
  have hpBase := probP_window_rzero 1 (1 / ((1 : ℕ) : ℝ)) (by norm_num) (by norm_num)
  have h0 := binomial_price_eq_spec 1 1 1 0 1 0 1 OptionKind.call Style.amer
    (by norm_num) (by norm_num) hpBase
  have h1 := binomial_price_eq_spec (1 + 1/2) 1 1 0 1 0 1 OptionKind.call Style.amer
    (by norm_num) (by norm_num) hpBase
  have h2 := binomial_price_eq_spec (1 - 1/2) 1 1 0 1 0 1 OptionKind.call Style.amer
    (by norm_num) (by norm_num) hpBase
  have h3 := binomial_price_eq_spec 1 1 (1 + 1/2) 0 1 0 1 OptionKind.call Style.amer
    (by norm_num) (by norm_num)
    (probP_window_rzero 1 ((1 + 1/2) / ((1 : ℕ) : ℝ)) (by norm_num) (by norm_num))
  have h4 := binomial_price_eq_spec 1 1 (max (1 - 1/2) (1/1000000)) 0 1 0 1
    OptionKind.call Style.amer (by norm_num) (by norm_num [max_def])
    (probP_window_rzero 1 (max ((1 : ℝ) - 1/2) (1/1000000) / ((1 : ℕ) : ℝ))
      (by norm_num) (by norm_num [max_def]))
  have h5 := binomial_price_eq_spec 1 1 1 0 (1 + 1/2) 0 1 OptionKind.call Style.amer
    (by norm_num) (by norm_num)
    (probP_window_rzero (1 + 1/2) (1 / ((1 : ℕ) : ℝ)) (by norm_num) (by norm_num))
  have h6 := binomial_price_eq_spec 1 1 1 0 (1 - 1/2) 0 1 OptionKind.call Style.amer
    (by norm_num) (by norm_num)
    (probP_window_rzero (1 - 1/2) (1 / ((1 : ℕ) : ℝ)) (by norm_num) (by norm_num))
  have h7 := binomial_price_eq_spec 1 1 1 (0 + 1/2) 1 0 1 OptionKind.call Style.amer
    (by norm_num) (by norm_num)
    (probP_window (0 + 1/2) 0 1 (1 / ((1 : ℕ) : ℝ)) (by norm_num) (by norm_num))
  have h8 := binomial_price_eq_spec 1 1 1 (0 - 1/2) 1 0 1 OptionKind.call Style.amer
    (by norm_num) (by norm_num)
    (probP_window (0 - 1/2) 0 1 (1 / ((1 : ℕ) : ℝ)) (by norm_num) (by norm_num))
  have hg := greeks_with_ok 1 1 1 0 1 0 (1/2) (1/2) (1/2) (1/2) 1
    OptionKind.call Style.amer _ _ _ _ _ _ _ _ _ h0 h1 h2 h3 h4 h5 h6 h7 h8
  exact ⟨_, _, _, hg, h3, h4,
    greeks_binomial_theta_formula 1 1 1 0 1 0 (1/2) (1/2) (1/2) (1/2) 1
      OptionKind.call Style.amer _ _ _ hg h3 h4⟩

/-- C9 (amended): `greeks_binomial` derives its result from nine pricer
invocations — instrumenting the pricer shows the exact trace: the base call
and the four up/down bump pairs for spot, expiry, volatility and rate, every
one of them with the same step count `N` (no adaptive refinement). -/
theorem greeks_binomial_nine_calls_same_N
    (S K T r sigma q h_S h_sigma h_T h_r : ℝ) (N : ℕ)
    (option : OptionKind) (style : Style) :
    ((greeks_with recPricer S K T r sigma N option style q h_S h_sigma h_T h_r).run []).2 =
      [⟨S, K, T, r, sigma, N, option, style, q⟩,
       ⟨S + h_S, K, T, r, sigma, N, option, style, q⟩,
       ⟨S - h_S, K, T, r, sigma, N, option, style, q⟩,
       ⟨S, K, T + h_T, r, sigma, N, option, style, q⟩,
       ⟨S, K, max (T - h_T) (1 / 1000000), r, sigma, N, option, style, q⟩,
       ⟨S, K, T, r, sigma + h_sigma, N, option, style, q⟩,
       ⟨S, K, T, r, sigma - h_sigma, N, option, style, q⟩,
       ⟨S, K, T, r + h_r, sigma, N, option, style, q⟩,
       ⟨S, K, T, r - h_r, sigma, N, option, style, q⟩] := rfl

/-- C9 counterexample: at the demo parameters the instrumented wrapper
records nine pricer invocations, not seven. -/
theorem greeks_binomial_not_seven_calls :
    (((greeks_with recPricer 100 100 (3/4) (1/25) (1/5) 400 OptionKind.call Style.amer
        (1/100) (1/100) (1/100) (1/365) (1/10000)).run []).2.length = 9) ∧
      ¬(((greeks_with recPricer 100 100 (3/4) (1/25) (1/5) 400 OptionKind.call Style.amer
        (1/100) (1/100) (1/100) (1/365) (1/10000)).run []).2.length = 7) := by
  constructor
  · rfl
  · intro h
    exact absurd h (by decide)
